import Mathlib

/-!
Interrupt-driven UART queues (`src/main.c`).

A shallow embedding of `uart_callback`, `send_str` and `recv_str` together with
the globals they share: the memory slab `slab` carved out of `buf`
(512 blocks of `struct fifo_item_t`) and the two kernel FIFOs `in_fifo` and
`out_fifo`.

Conventions of the embedding.

* A `struct fifo_item_t *` is the index of its block inside `buf`; the block's
  payload field `c` lives in `State.mem`.  The field `fifo_reserved` is the
  linkage word of the kernel and is represented by the position of the block
  in the free list or in a queue.
* The kernel objects (`k_mem_slab`, `k_fifo`) and the UART driver are not part
  of `main.c`; their behaviour is taken from the specification (sections 4.1,
  4.2 and 6).
* `__ASSERT(cond, ...)` halts the system when `cond` is false.  A halted run is
  the result `Result.fatal f s`, where `s` is the state at the moment of the
  halt.
* A C string argument is the list of bytes stored before its terminating NUL.
  `int` is 32 bits wide.  The conversion of `strlen(str)` to `int` at line 68
  keeps the value modulo `2^32` in the range `-2^31 .. 2^31 - 1`, which is how
  GCC and Clang define it.
* All three functions run to completion without preemption.  Preemption of
  `send_str` or `recv_str` by the handler in the middle of their loops is not
  part of this development.
-/

namespace UartTest

/-! ## Data model -/

/-- The two serial ports bound at lines 16-17. -/
inductive Dev
  | uart0
  | uart2
  deriving DecidableEq, Repr

/-- The terminating byte of a C string. -/
def NUL : Char := Char.ofNat 0

/-- Number of blocks handed to `k_mem_slab_init` at line 103. -/
def SLAB_BLOCKS : Nat := 512

/-- Modelled from the spec: the kernel's `struct k_mem_slab` (section 4.1, "Bounded
Element Pool"), which is not defined in `main.c`.  `free_list` holds the blocks
that are available, `num_used` counts the blocks handed out and not yet
returned. -/
structure k_mem_slab where
  free_list : List Nat
  num_used : Nat
  deriving DecidableEq, Repr

/-- Modelled from the spec: `k_mem_slab_init` (section 4.1): every block of the
buffer is available and none is in use. -/
def k_mem_slab_init (num_blocks : Nat) : k_mem_slab :=
  { free_list := List.range num_blocks, num_used := 0 }

/-- Modelled from the spec: `k_mem_slab_alloc(&slab, &p, K_NO_WAIT)` (section 4.1,
`alloc`): non-blocking; `none` is the distinguishable failure on exhaustion
(`ret != 0`), otherwise the block and the updated slab. -/
def k_mem_slab_alloc (slab : k_mem_slab) : Option (Nat × k_mem_slab) :=
  match slab.free_list with
  | [] => none
  | p :: rest => some (p, { free_list := rest, num_used := slab.num_used + 1 })

/-- Modelled from the spec: `k_mem_slab_free(&slab, p)` (section 4.1, `free`):
returns the block to availability. -/
def k_mem_slab_free (slab : k_mem_slab) (p : Nat) : k_mem_slab :=
  { free_list := p :: slab.free_list, num_used := slab.num_used - 1 }

/-- Modelled from the spec: `struct k_fifo` (section 4.2, "Directional Queue"): the
ordered sequence of queued blocks, head first. -/
abbrev k_fifo := List Nat

/-- Modelled from the spec: `k_fifo_init` (section 4.2): the empty queue. -/
def k_fifo_init : k_fifo := []

/-- Modelled from the spec: `k_fifo_put` (section 4.2, `push`): inserts at the
tail. -/
def k_fifo_put (q : k_fifo) (p : Nat) : k_fifo := q ++ [p]

/-- Modelled from the spec: `k_fifo_get(&q, K_NO_WAIT)` (section 4.2,
`pop_nowait`): removes and returns the head if present, else reports empty
(`NULL`) without blocking. -/
def k_fifo_get (q : k_fifo) : Option Nat × k_fifo :=
  match q with
  | [] => (none, [])
  | p :: rest => (some p, rest)

/-- Modelled from the spec: `k_fifo_is_empty` (section 4.2, `is_empty`). -/
def k_fifo_is_empty (q : k_fifo) : Bool := q.isEmpty

/-- The globals of `main.c` (lines 24-27) together with what the program can
observe of the two peripherals: their interrupt enables and the bytes handed
to `uart_fifo_fill` so far, oldest first, each tagged with its port. -/
structure State where
  /-- Payload field `c` of every block of `buf`. -/
  mem : Nat → Char
  slab : k_mem_slab
  in_fifo : k_fifo
  out_fifo : k_fifo
  /-- Receive-ready interrupt enable of each port. -/
  irq_rx : Dev → Bool
  /-- Transmit-ready interrupt enable of each port. -/
  irq_tx : Dev → Bool
  /-- Bytes accepted by the peripherals, in the order they were written. -/
  wire : List (Dev × Char)

/-- Modelled from the spec: what the byte-transport peripheral reports during one
invocation of the handler (section 6): the two parts of "an interrupt is
pending", the receive-ready and transmit-ready conditions, the byte that
`uart_fifo_read` delivers and the number of bytes `uart_fifo_fill` accepts. -/
structure Hw where
  irq_update : Bool
  irq_is_pending : Bool
  irq_rx_ready : Bool
  irq_tx_ready : Bool
  rx_byte : Char
  fill_ret : Nat
  deriving DecidableEq, Repr

/-- The two assertions of `main.c` that can fail after start-up, and the
dereference of a `NULL` queue element in `recv_str`. -/
inductive Fault
  | out_of_memory
  | uart_tx_failed
  | null_element
  deriving DecidableEq, Repr

/-- Outcome of running a function of `main.c`: it returns, or the system halts
in the given state. -/
inductive Result (α : Type) where
  | ok (a : α)
  | fatal (f : Fault) (s : State)

/-- Modelled from the spec: `uart_irq_tx_enable` (section 6,
`enable_transmit_interrupt`, idempotent). -/
def uart_irq_tx_enable (dev : Dev) (s : State) : State :=
  { s with irq_tx := Function.update s.irq_tx dev true }

/-- Modelled from the spec: `uart_irq_tx_disable` (section 6,
`disable_transmit_interrupt`, idempotent). -/
def uart_irq_tx_disable (dev : Dev) (s : State) : State :=
  { s with irq_tx := Function.update s.irq_tx dev false }

/-- Modelled from the spec: `uart_irq_rx_enable` (section 6,
`enable_receive_interrupt`). -/
def uart_irq_rx_enable (dev : Dev) (s : State) : State :=
  { s with irq_rx := Function.update s.irq_rx dev true }

/-- Modelled from the spec: `uart_irq_rx_disable` (section 6,
`disable_receive_interrupt`). -/
def uart_irq_rx_disable (dev : Dev) (s : State) : State :=
  { s with irq_rx := Function.update s.irq_rx dev false }

/-- Modelled from the spec: `uart_fifo_fill(dev, &c, 1)` (section 6,
`write_byte`): the peripheral accepts `ret` bytes of the one offered. -/
def uart_fifo_fill (dev : Dev) (c : Char) (ret : Nat) (s : State) : State :=
  { s with wire := s.wire ++ ([(dev, c)].take ret) }

/-! ## The functions of `main.c` -/

/-- The interrupt handler, lines 29-64. -/
def uart_callback (dev : Dev) (hw : Hw) (s : State) : Result State :=
  if hw.irq_update && hw.irq_is_pending then
    -- lines 34-42
    let afterRx : Result State :=
      if hw.irq_rx_ready then
        match k_mem_slab_alloc s.slab with
        | none => .fatal .out_of_memory s
        | some (rdata, slab) =>
          .ok { s with
                slab := slab
                mem := Function.update s.mem rdata hw.rx_byte
                in_fifo := k_fifo_put s.in_fifo rdata }
      else .ok s
    match afterRx with
    | .fatal f h => .fatal f h
    | .ok s1 =>
      -- lines 44-62
      if hw.irq_tx_ready then
        if k_fifo_is_empty s1.out_fifo then
          .ok (uart_irq_tx_disable dev s1)
        else
          match k_fifo_get s1.out_fifo with
          | (none, q) => .ok { s1 with out_fifo := q }
          | (some tdata, q) =>
            let s2 := uart_fifo_fill dev (s1.mem tdata) hw.fill_ret { s1 with out_fifo := q }
            if hw.fill_ret = 1 then
              .ok { s2 with slab := k_mem_slab_free s2.slab tdata }
            else .fatal .uart_tx_failed s2
      else .ok s1
  else .ok s

/-- Modelled from the spec: `strlen` of the C library: the number of bytes before
the first NUL. -/
def strlen (str : List Char) : Nat := (str.takeWhile (fun c => c != NUL)).length

/-- The value an `int` takes when it is assigned the `size_t` value `n`: `n`
modulo `2^32`, in the range `-2^31 .. 2^31 - 1`. -/
def to_int (n : Nat) : Int :=
  if n % 4294967296 < 2147483648 then ((n % 4294967296 : Nat) : Int)
  else ((n % 4294967296 : Nat) : Int) - 4294967296

/-- The local `msg_len` of `send_str`, line 68: `int msg_len = strlen(str)`. -/
def msg_len (str : List Char) : Int := to_int (strlen str)

/-- The body of the loop of `send_str`, lines 71-76, repeated `n` times with the
counter starting at `i`. -/
def send_loop (str : List Char) : Nat → Nat → State → Result State
  | 0, _, s => .ok s
  | n + 1, i, s =>
    match k_mem_slab_alloc s.slab with
    | none => .fatal .out_of_memory s
    | some (tdata, slab) =>
      send_loop str n (i + 1)
        { s with
          slab := slab
          mem := Function.update s.mem tdata (str.getD i NUL)
          out_fifo := k_fifo_put s.out_fifo tdata }

/-- The function `send_str`, lines 66-80 (the log line is not modelled).  The
loop `for (int i = 0; i < msg_len; i++)` runs `msg_len` times when `msg_len` is
positive and not at all otherwise. -/
def send_str (uart : Dev) (str : List Char) (s : State) : Result State :=
  match send_loop str (msg_len str).toNat 0 s with
  | .fatal f h => .fatal f h
  | .ok s1 => .ok (uart_irq_tx_enable uart s1)

/-- The loop of `recv_str`, lines 86-90.  `head` is what has been stored through
the pointer `head` so far and `pops` counts the calls of `k_fifo_get`. -/
def recv_loop (s : State) (head : List Char) (pops : Nat) :
    Result (State × List Char × Nat) :=
  if k_fifo_is_empty s.in_fifo then .ok (s, head, pops)
  else
    match hget : k_fifo_get s.in_fifo with
    | (none, _) => .fatal .null_element s
    | (some e, q) =>
      recv_loop
        { s with in_fifo := q, slab := k_mem_slab_free s.slab e }
        (head ++ [s.mem e]) (pops + 1)
termination_by s.in_fifo.length
decreasing_by
  simp only [k_fifo_get] at hget
  split at hget
  · simp at hget
  · rename_i p rest hq
    simp only [Prod.mk.injEq, Option.some.injEq] at hget
    rw [hq, ← hget.2]
    simp

/-- The function `recv_str`, lines 82-94 (the log line is not modelled): the
final state and the bytes stored into `str`, terminator included. -/
def recv_str (_uart : Dev) (s : State) : Result (State × List Char) :=
  match recv_loop s [] 0 with
  | .fatal f h => .fatal f h
  | .ok (s1, head, _) => .ok (s1, head ++ [NUL])

/-- The set-up performed by `main`, lines 103-117, on the zero-initialised
globals. -/
def init_state : State :=
  let s0 : State :=
    { mem := fun _ => NUL
      slab := k_mem_slab_init SLAB_BLOCKS
      in_fifo := k_fifo_init
      out_fifo := k_fifo_init
      irq_rx := fun _ => false
      irq_tx := fun _ => false
      wire := [] }
  uart_irq_rx_enable .uart2
    (uart_irq_tx_disable .uart2
      (uart_irq_rx_disable .uart2
        (uart_irq_tx_disable .uart0
          (uart_irq_rx_disable .uart0 s0))))

/-! ## Runs of the program -/

/-- One invocation of a function of `main.c`, with its arguments. -/
inductive Op
  | send (uart : Dev) (str : List Char)
  | recv (uart : Dev)
  | irq (dev : Dev) (hw : Hw)

/-- Effect of one invocation on the globals (the bytes returned by `recv_str`
are dropped). -/
def Op.exec (op : Op) (s : State) : Result State :=
  match op with
  | .send uart str => send_str uart str s
  | .recv uart =>
    match recv_str uart s with
    | .ok (s1, _) => .ok s1
    | .fatal f h => .fatal f h
  | .irq dev hw => uart_callback dev hw s

/-- Invocations executed one after the other; a halt ends the run. -/
def run : List Op → State → Result State
  | [], s => .ok s
  | op :: ops, s =>
    match op.exec s with
    | .ok s1 => run ops s1
    | .fatal f h => .fatal f h

/-- States at the boundary of a sequence of invocations that all returned,
starting from the state set up by `main`. -/
def Reachable (s : State) : Prop := ∃ ops, run ops init_state = .ok s

/-- The bytes of a C string: everything before the first NUL. -/
def cstr (str : List Char) : List Char := str.takeWhile (fun c => c != NUL)

/-- Concatenation of the strings passed to `send_str`, in call order. -/
def sent : List Op → List Char
  | [] => []
  | .send _ str :: ops => cstr str ++ sent ops
  | _ :: ops => sent ops

/-- The bytes of a string that `send_str` puts on the queue: its first `msg_len`
bytes. -/
def taken (str : List Char) : List Char := (cstr str).take (msg_len str).toNat

/-- The bytes put on the queue by the calls of `send_str`, in call order. -/
def accepted : List Op → List Char
  | [] => []
  | .send _ str :: ops => taken str ++ accepted ops
  | _ :: ops => accepted ops

/-- Payloads of the inbound queue, head to tail. -/
def State.inBytes (s : State) : List Char := s.in_fifo.map s.mem

/-- Payloads of the outbound queue, head to tail. -/
def State.outBytes (s : State) : List Char := s.out_fifo.map s.mem

/-- Bytes written to the peripherals so far, oldest first. -/
def State.wireBytes (s : State) : List Char := s.wire.map Prod.snd

/-- Ownership discipline of the blocks: every block is in exactly one of the
free list, the inbound queue and the outbound queue, and the slab's counter
agrees with the queues. -/
structure Inv (s : State) : Prop where
  nodup : (s.slab.free_list ++ (s.in_fifo ++ s.out_fifo)).Nodup
  total : s.slab.free_list.length + s.slab.num_used = SLAB_BLOCKS
  used : s.slab.num_used = s.in_fifo.length + s.out_fifo.length

/-- State left by `recv_str`: the inbound queue is empty and its blocks are back
in the slab, the block popped last on top. -/
def drained (s : State) : State :=
  { s with
    in_fifo := []
    slab := { free_list := s.in_fifo.reverse ++ s.slab.free_list
              num_used := s.slab.num_used - s.in_fifo.length } }

/-- Lines 34-42 of `uart_callback` on their own. -/
def rx_branch (hw : Hw) (s : State) : Result State :=
  if hw.irq_rx_ready then
    match k_mem_slab_alloc s.slab with
    | none => .fatal .out_of_memory s
    | some (rdata, slab) =>
      .ok { s with
            slab := slab
            mem := Function.update s.mem rdata hw.rx_byte
            in_fifo := k_fifo_put s.in_fifo rdata }
  else .ok s

/-- Lines 44-62 of `uart_callback` on their own. -/
def tx_branch (dev : Dev) (hw : Hw) (s1 : State) : Result State :=
  if hw.irq_tx_ready then
    if k_fifo_is_empty s1.out_fifo then
      .ok (uart_irq_tx_disable dev s1)
    else
      match k_fifo_get s1.out_fifo with
      | (none, q) => .ok { s1 with out_fifo := q }
      | (some tdata, q) =>
        let s2 := uart_fifo_fill dev (s1.mem tdata) hw.fill_ret { s1 with out_fifo := q }
        if hw.fill_ret = 1 then
          .ok { s2 with slab := k_mem_slab_free s2.slab tdata }
        else .fatal .uart_tx_failed s2
  else .ok s1

/-- Final state of a run, whether it returned or halted. -/
def Result.state : Result State → State
  | .ok s => s
  | .fatal _ h => h

/-- What the handler sees when only transmit-ready is asserted and the
peripheral accepts the byte offered. -/
def hw_tx : Hw :=
  { irq_update := true, irq_is_pending := true, irq_rx_ready := false,
    irq_tx_ready := true, rx_byte := NUL, fill_ret := 1 }

/-- What the handler sees when only receive-ready is asserted and the byte `c`
has arrived. -/
def hw_rx (c : Char) : Hw :=
  { irq_update := true, irq_is_pending := true, irq_rx_ready := true,
    irq_tx_ready := false, rx_byte := c, fill_ret := 0 }

/-- The loop-back wiring of the demo: the transmit line of `uart0` feeds the
receive line of `uart2`.  `line` holds the bytes written by `uart0` that
`uart2` has not taken in yet, oldest first. -/
structure Link where
  sys : State
  line : List Char

/-- The two interrupts of the loop-back: transmit-ready on `uart0`,
receive-ready on `uart2`. -/
inductive LinkEv
  | transmit
  | receive
  deriving DecidableEq, Repr

/-- One interrupt of the loop-back.  A transmit-ready interrupt runs the handler
on `uart0` and puts what it wrote on the line; a receive-ready interrupt is
raised only when a byte is on the line and runs the handler on `uart2` with the
oldest such byte. -/
def Link.step (l : Link) : LinkEv → Result Link
  | .transmit =>
    match uart_callback .uart0 hw_tx l.sys with
    | .ok s1 =>
      .ok { sys := s1, line := l.line ++ (s1.wire.drop l.sys.wire.length).map Prod.snd }
    | .fatal f h => .fatal f h
  | .receive =>
    match l.line with
    | [] => .ok l
    | c :: rest =>
      match uart_callback .uart2 (hw_rx c) l.sys with
      | .ok s1 => .ok { sys := s1, line := rest }
      | .fatal f h => .fatal f h

/-- Interrupts of the loop-back served one after the other. -/
def Link.run : List LinkEv → Link → Result Link
  | [], l => .ok l
  | ev :: evs, l =>
    match l.step ev with
    | .ok l1 => Link.run evs l1
    | .fatal f h => .fatal f h

/-- The schedule in which every byte written by `uart0` is taken in by `uart2`
before the next one is written, for `n` bytes. -/
def lockstep : Nat → List LinkEv
  | 0 => []
  | n + 1 => .transmit :: .receive :: lockstep n

/-- What the loop-back preserves while the string `str` is in transit: the
ownership discipline, and the bytes received, on the line and still queued
make up `str`. -/
structure InTransit (str : List Char) (l : Link) : Prop where
  inv : Inv l.sys
  bytes : l.sys.inBytes ++ (l.line ++ l.sys.outBytes) = str

/-! ## Concrete runs -/

/-- The initial state with the transmit-ready interrupt of `uart0` enabled and
nothing to send. -/
def armed_idle : State := uart_irq_tx_enable .uart0 init_state

/-- One call of `send_str` that uses up the whole slab. -/
def full_ops : List Op := [.send .uart0 (List.replicate 512 'A')]

/-- The state with all 512 blocks in the outbound queue. -/
def full_state : State := (run full_ops init_state).state

/-- Two bytes are queued and one of them is written. -/
def pending_ops : List Op := [.send .uart0 ['H', 'i'], .irq .uart0 hw_tx]

/-- The state with one byte written and one still queued. -/
def pending_state : State := (run pending_ops init_state).state

/-- The payloads `a`, `b`, `c` are queued by three calls of `send_str`, with the
handler transmitting in between. -/
def abc_ops : List Op :=
  [.send .uart0 ['a'], .send .uart0 ['b'], .irq .uart0 hw_tx, .send .uart0 ['c'],
   .irq .uart0 hw_tx]

/-- The state after `abc_ops`. -/
def abc_state : State := (run abc_ops init_state).state

/-- A send followed by one invocation of the handler that finds both
receive-ready and transmit-ready asserted. -/
def mixed_ops : List Op :=
  [.send .uart0 ['H', 'i'],
   .irq .uart2 { irq_update := true, irq_is_pending := true, irq_rx_ready := true,
                 irq_tx_ready := true, rx_byte := 'x', fill_ret := 1 }]

/-- The state after `mixed_ops`. -/
def mixed_state : State := (run mixed_ops init_state).state

/-- The state after the handler on `uart2` has read the byte `x`. -/
def got_x : State := (uart_callback .uart2 (hw_rx 'x') init_state).state

/-- The state after `send_str(uart0, "x")`. -/
def sent_x : State := (send_str .uart0 ['x'] init_state).state

/-! ## Auxiliary lemmas -/

theorem map_update_of_not_mem (mem : Nat → Char) (p : Nat) (c : Char) (q : List Nat)
    (h : p ∉ q) : q.map (Function.update mem p c) = q.map mem := by
  apply List.map_congr_left
  intro a ha
  have : a ≠ p := fun e => h (e ▸ ha)
  simp [Function.update, this]

theorem init_inv : Inv init_state := by
  refine ⟨?_, ?_, ?_⟩
  · simp [init_state, k_mem_slab_init, k_fifo_init, uart_irq_rx_enable, uart_irq_tx_disable,
      uart_irq_rx_disable, List.nodup_range]
  · simp [init_state, k_mem_slab_init, k_fifo_init, uart_irq_rx_enable, uart_irq_tx_disable,
      uart_irq_rx_disable]
  · simp [init_state, k_mem_slab_init, k_fifo_init, uart_irq_rx_enable, uart_irq_tx_disable,
      uart_irq_rx_disable]

theorem recv_loop_eq (q : List Nat) : ∀ (s : State) (head : List Char) (pops : Nat),
    s.in_fifo = q →
    recv_loop s head pops
      = .ok (drained s, head ++ s.in_fifo.map s.mem, pops + s.in_fifo.length) := by
  induction q with
  | nil =>
    intro s head pops hq
    rw [recv_loop]
    obtain ⟨mem, ⟨fl, nu⟩, inq, outq, rx, tx, w⟩ := s
    simp only at hq
    subst hq
    simp [k_fifo_is_empty, drained]
  | cons p rest ih =>
    intro s head pops hq
    rw [recv_loop]
    obtain ⟨mem, ⟨fl, nu⟩, inq, outq, rx, tx, w⟩ := s
    simp only at hq
    subst hq
    simp only [k_fifo_is_empty, List.isEmpty_cons, Bool.false_eq_true, if_false]
    simp only [k_fifo_get]
    rw [ih _ _ _ rfl]
    simp [drained, k_mem_slab_free]
    omega

theorem recv_str_eq (uart : Dev) (s : State) :
    recv_str uart s = .ok (drained s, s.inBytes ++ [NUL]) := by
  simp [recv_str, recv_loop_eq s.in_fifo s [] 0 rfl, State.inBytes]

theorem drained_inv {s : State} (h : Inv s) : Inv (drained s) := by
  obtain ⟨hn, ht, hu⟩ := h
  refine ⟨?_, ?_, ?_⟩
  · simp only [drained, List.nil_append]
    refine (List.Perm.nodup_iff ?_).mpr hn
    simp only [← List.append_assoc]
    exact List.Perm.append_right _ ((List.reverse_perm _).append_right _ |>.trans List.perm_append_comm)
  · simp only [drained, List.length_append, List.length_reverse]
    omega
  · simp only [drained, List.length_nil]
    omega

theorem perm_put_out (p : Nat) (a b c : List Nat) :
    (a ++ (b ++ (c ++ [p]))).Perm (p :: a ++ (b ++ c)) := by
  rw [List.perm_iff_count]
  intro x
  simp only [List.count_append, List.count_cons, List.cons_append, List.count_nil]
  omega

theorem perm_put_in (p : Nat) (a b c : List Nat) :
    (a ++ ((b ++ [p]) ++ c)).Perm (p :: a ++ (b ++ c)) := by
  rw [List.perm_iff_count]
  intro x
  simp only [List.count_append, List.count_cons, List.cons_append, List.count_nil]
  omega

theorem perm_get_out (p : Nat) (a b c : List Nat) :
    (p :: a ++ (b ++ c)).Perm (a ++ (b ++ p :: c)) := by
  rw [List.perm_iff_count]
  intro x
  simp only [List.count_append, List.count_cons, List.cons_append, List.count_nil]
  omega

theorem alloc_spec {slab slab1 : k_mem_slab} {p : Nat}
    (h : k_mem_slab_alloc slab = some (p, slab1)) :
    slab.free_list = p :: slab1.free_list ∧ slab1.num_used = slab.num_used + 1 := by
  unfold k_mem_slab_alloc at h
  split at h
  · simp at h
  · rename_i a rest hfl
    simp only [Option.some.injEq, Prod.mk.injEq] at h
    obtain ⟨rfl, rfl⟩ := h
    exact ⟨hfl, rfl⟩

theorem alloc_none {slab : k_mem_slab} :
    k_mem_slab_alloc slab = none ↔ slab.free_list = [] := by
  unfold k_mem_slab_alloc
  split <;> simp_all

theorem alloc_fresh {s : State} (hI : Inv s) {slab1 : k_mem_slab} {p : Nat}
    (h : k_mem_slab_alloc s.slab = some (p, slab1)) :
    p ∉ s.in_fifo ∧ p ∉ s.out_fifo := by
  have hn := hI.nodup
  rw [(alloc_spec h).1] at hn
  simp only [List.cons_append, List.nodup_cons, List.mem_append, not_or] at hn
  exact ⟨hn.1.2.1, hn.1.2.2⟩

theorem inv_put_out {s : State} (hI : Inv s) {slab1 : k_mem_slab} {p : Nat}
    (h : k_mem_slab_alloc s.slab = some (p, slab1)) (c : Char) :
    Inv { s with slab := slab1, mem := Function.update s.mem p c,
                 out_fifo := k_fifo_put s.out_fifo p } := by
  obtain ⟨hfl, hnu⟩ := alloc_spec h
  obtain ⟨hn, ht, hu⟩ := hI
  refine ⟨?_, ?_, ?_⟩
  · simp only [k_fifo_put]
    rw [hfl] at hn
    exact (List.Perm.nodup_iff (perm_put_out _ _ _ _)).mpr hn
  · simp only
    rw [hfl] at ht
    simp only [List.length_cons] at ht
    omega
  · simp only [k_fifo_put, List.length_append, List.length_singleton]
    omega

theorem inv_put_in {s : State} (hI : Inv s) {slab1 : k_mem_slab} {p : Nat}
    (h : k_mem_slab_alloc s.slab = some (p, slab1)) (c : Char) :
    Inv { s with slab := slab1, mem := Function.update s.mem p c,
                 in_fifo := k_fifo_put s.in_fifo p } := by
  obtain ⟨hfl, hnu⟩ := alloc_spec h
  obtain ⟨hn, ht, hu⟩ := hI
  refine ⟨?_, ?_, ?_⟩
  · simp only [k_fifo_put]
    rw [hfl] at hn
    exact (List.Perm.nodup_iff (perm_put_in _ _ _ _)).mpr hn
  · simp only
    rw [hfl] at ht
    simp only [List.length_cons] at ht
    omega
  · simp only [k_fifo_put, List.length_append, List.length_singleton]
    omega

theorem inv_get_out {s : State} (hI : Inv s) {p : Nat} {q : List Nat}
    (h : s.out_fifo = p :: q) (w : List (Dev × Char)) :
    Inv { s with out_fifo := q, wire := w, slab := k_mem_slab_free s.slab p } := by
  obtain ⟨hn, ht, hu⟩ := hI
  rw [h] at hn hu
  simp only [List.length_cons] at hu
  refine ⟨?_, ?_, ?_⟩
  · simp only [k_mem_slab_free]
    exact (List.Perm.nodup_iff (perm_get_out _ _ _ _)).mpr hn
  · simp only [k_mem_slab_free, List.length_cons]
    omega
  · simp only [k_mem_slab_free]
    omega

theorem uart_callback_eq (dev : Dev) (hw : Hw) (s : State) :
    uart_callback dev hw s =
      if hw.irq_update && hw.irq_is_pending then
        match rx_branch hw s with
        | .fatal f h => .fatal f h
        | .ok s1 => tx_branch dev hw s1
      else .ok s := rfl

theorem rx_branch_ok {hw : Hw} {s s1 : State} (hI : Inv s) (h : rx_branch hw s = .ok s1) :
    Inv s1 ∧ s1.inBytes = s.inBytes ++ (if hw.irq_rx_ready then [hw.rx_byte] else []) ∧
    s1.outBytes = s.outBytes ∧ s1.out_fifo = s.out_fifo ∧ s1.wire = s.wire ∧
    s1.irq_rx = s.irq_rx ∧ s1.irq_tx = s.irq_tx := by
  unfold rx_branch at h
  split at h
  · rename_i hrx
    split at h
    · simp at h
    · rename_i p slab1 ha
      simp only [Result.ok.injEq] at h
      subst h
      obtain ⟨hin, hout⟩ := alloc_fresh hI ha
      refine ⟨inv_put_in hI ha _, ?_, ?_, rfl, rfl, rfl, rfl⟩
      · simp [State.inBytes, k_fifo_put, hrx, map_update_of_not_mem _ _ _ _ hin]
      · simp [State.outBytes, map_update_of_not_mem _ _ _ _ hout]
  · rename_i hrx
    simp only [Result.ok.injEq] at h
    subst h
    simp [hI, hrx]

theorem rx_branch_fatal {hw : Hw} {s h : State} {f : Fault}
    (hf : rx_branch hw s = .fatal f h) :
    f = .out_of_memory ∧ h = s ∧ s.slab.free_list = [] := by
  unfold rx_branch at hf
  split at hf
  · split at hf
    · rename_i ha
      simp only [Result.fatal.injEq] at hf
      exact ⟨hf.1.symm, hf.2.symm, alloc_none.mp ha⟩
    · simp at hf
  · simp at hf

theorem tx_branch_ok {dev : Dev} {hw : Hw} {s s1 : State} (hI : Inv s)
    (h : tx_branch dev hw s = .ok s1) :
    Inv s1 ∧ s1.in_fifo = s.in_fifo ∧ s1.mem = s.mem ∧ s1.irq_rx = s.irq_rx ∧
    (∃ X, s1.wire = s.wire ++ X ∧ X.map Prod.snd ++ s1.outBytes = s.outBytes ∧
      X.map Prod.snd ++ s1.out_fifo.map s.mem = s.out_fifo.map s.mem ∧
      ∀ x ∈ X, x.1 = dev) ∧
    (s1.out_fifo ≠ [] → s.out_fifo ≠ [] ∧ s1.irq_tx = s.irq_tx) ∧
    (∀ d, d ≠ dev → s1.irq_tx d = s.irq_tx d) ∧
    (hw.irq_tx_ready = false → s1 = s) := by
  unfold tx_branch at h
  split at h
  · rename_i htx
    split at h
    · simp only [Result.ok.injEq] at h
      subst h
      rename_i he
      have he : s.out_fifo = [] := by simpa [k_fifo_is_empty] using he
      refine ⟨⟨hI.nodup, hI.total, hI.used⟩, rfl, rfl, rfl, ⟨[], ?_⟩, ?_, ?_, ?_⟩
      · simp [uart_irq_tx_disable, State.outBytes]
      · simp [uart_irq_tx_disable, he]
      · intro d hd
        simp [uart_irq_tx_disable, Function.update, hd]
      · simp [htx]
    · rename_i he
      split at h
      · rename_i q hg
        unfold k_fifo_get at hg
        split at hg
        · simp [k_fifo_is_empty] at he
          rename_i hq
          exact absurd hq he
        · simp at hg
      · rename_i p q hg
        unfold k_fifo_get at hg
        split at hg
        · simp at hg
        · rename_i p1 q1 hq
          simp only [Prod.mk.injEq, Option.some.injEq] at hg
          obtain ⟨rfl, rfl⟩ := hg
          split at h
          · rename_i hret
            simp only [Result.ok.injEq] at h
            subst h
            refine ⟨inv_get_out hI hq _, rfl, rfl, rfl, ⟨[(dev, s.mem p1)], ?_⟩, ?_, ?_, ?_⟩
            · simp [uart_fifo_fill, hret, State.outBytes, hq]
            · intro _
              simp [uart_fifo_fill, hq]
            · intro d _
              simp [uart_fifo_fill]
            · simp [htx]
          · simp at h
  · simp only [Result.ok.injEq] at h
    subst h
    refine ⟨hI, rfl, rfl, rfl, ⟨[], ?_⟩, ?_, ?_, ?_⟩
    · simp
    · intro hne
      exact ⟨hne, rfl⟩
    · intro d _
      rfl
    · intro _
      rfl

theorem tx_branch_fatal {dev : Dev} {hw : Hw} {s h : State} {f : Fault}
    (hf : tx_branch dev hw s = .fatal f h) : f = .uart_tx_failed := by
  unfold tx_branch at hf
  split at hf
  · split at hf
    · simp at hf
    · split at hf
      · simp at hf
      · split at hf
        · simp at hf
        · simp only [Result.fatal.injEq] at hf
          exact hf.1.symm
  · simp at hf

theorem callback_ok {dev : Dev} {hw : Hw} {s s1 : State} (hI : Inv s)
    (h : uart_callback dev hw s = .ok s1) :
    Inv s1 ∧
    s1.inBytes = s.inBytes ++
      (if (hw.irq_update && hw.irq_is_pending && hw.irq_rx_ready) = true
        then [hw.rx_byte] else []) ∧
    s1.irq_rx = s.irq_rx ∧
    (∃ X, s1.wire = s.wire ++ X ∧ X.map Prod.snd ++ s1.outBytes = s.outBytes ∧
      ∀ x ∈ X, x.1 = dev) ∧
    (s1.out_fifo ≠ [] → s.out_fifo ≠ [] ∧ s1.irq_tx = s.irq_tx) ∧
    (∀ d, d ≠ dev → s1.irq_tx d = s.irq_tx d) ∧
    (hw.irq_tx_ready = false → s1.wire = s.wire ∧ s1.outBytes = s.outBytes) := by
  rw [uart_callback_eq] at h
  split at h
  · rename_i hc
    split at h
    · simp at h
    · rename_i s0 hr
      obtain ⟨hI0, hin0, hout0, hq0, hw0, hrx0, htx0⟩ := rx_branch_ok hI hr
      obtain ⟨hI1, hin1, hmem1, hrx1, ⟨X, hX1, hX2, _, hX3⟩, hne1, hd1, hs1⟩ :=
        tx_branch_ok hI0 h
      refine ⟨hI1, ?_, hrx1.trans hrx0, ⟨X, ?_, ?_, hX3⟩, ?_, ?_, ?_⟩
      · have : s1.inBytes = s0.inBytes := by simp [State.inBytes, hin1, hmem1]
        rw [this, hin0]
        simp [hc]
      · rw [hX1, hw0]
      · rw [hX2, hout0]
      · intro hne
        obtain ⟨h1, h2⟩ := hne1 hne
        exact ⟨hq0 ▸ h1, h2.trans htx0⟩
      · intro d hd
        rw [hd1 d hd, htx0]
      · intro htx
        rw [hs1 htx]
        exact ⟨hw0, hout0⟩
  · rename_i hc
    simp only [Result.ok.injEq] at h
    subst h
    refine ⟨hI, ?_, rfl, ⟨[], by simp⟩, fun hne => ⟨hne, rfl⟩, fun _ _ => rfl,
      fun _ => ⟨rfl, rfl⟩⟩
    have : (hw.irq_update && hw.irq_is_pending && hw.irq_rx_ready) = false := by
      simp only [Bool.not_eq_true] at hc
      simp [hc]
    simp [this]

theorem callback_fatal_oom {dev : Dev} {hw : Hw} {s h : State}
    (hf : uart_callback dev hw s = .fatal .out_of_memory h) :
    h = s ∧ s.slab.free_list = [] := by
  rw [uart_callback_eq] at hf
  split at hf
  · split at hf
    · rename_i f0 h0 hr
      simp only [Result.fatal.injEq] at hf
      rw [← hf.2]
      exact (rx_branch_fatal hr).2
    · have := tx_branch_fatal hf
      simp at this
  · simp at hf

theorem send_loop_ok (str : List Char) : ∀ (n i : Nat) (s s1 : State), Inv s →
    send_loop str n i s = .ok s1 →
    Inv s1 ∧ s1.in_fifo = s.in_fifo ∧ s1.inBytes = s.inBytes ∧
    s1.outBytes = s.outBytes ++ (List.range n).map (fun k => str.getD (i + k) NUL) ∧
    s1.wire = s.wire ∧ s1.irq_rx = s.irq_rx ∧ s1.irq_tx = s.irq_tx ∧
    (0 < n → s1.out_fifo ≠ []) ∧
    s1.slab.num_used = s.slab.num_used + n := by
  intro n
  induction n with
  | zero =>
    intro i s s1 hI h
    simp only [send_loop, Result.ok.injEq] at h
    subst h
    simp [hI]
  | succ n ih =>
    intro i s s1 hI h
    simp only [send_loop] at h
    split at h
    · simp at h
    · rename_i p slab1 ha
      obtain ⟨hin, hout⟩ := alloc_fresh hI ha
      obtain ⟨h1, h2, h3, h4, h5, h6, h7, h8, h9⟩ :=
        ih (i + 1) _ s1 (inv_put_out hI ha (str.getD i NUL)) h
      refine ⟨h1, h2, ?_, ?_, h5, h6, h7, ?_, ?_⟩
      · rw [h3]
        simp [State.inBytes, map_update_of_not_mem _ _ _ _ hin]
      · rw [h4, List.range_succ_eq_map]
        simp [State.outBytes, k_fifo_put, map_update_of_not_mem _ _ _ _ hout,
          Function.comp_def, Nat.add_assoc, Nat.add_comm 1]
      · intro _ he
        have := congrArg List.length h4
        simp only [State.outBytes, he, k_fifo_put, List.map_nil, List.length_nil,
          List.length_append, List.length_map, List.length_singleton, List.length_range,
          List.length_cons] at this
        omega
      · rw [h9, (alloc_spec ha).2]
        omega

theorem send_loop_total (str : List Char) : ∀ (n i : Nat) (s : State),
    n ≤ s.slab.free_list.length → ∃ s1, send_loop str n i s = .ok s1 := by
  intro n
  induction n with
  | zero => intro i s _; exact ⟨s, rfl⟩
  | succ n ih =>
    intro i s hn
    simp only [send_loop]
    cases hfl : s.slab.free_list with
    | nil => simp [hfl] at hn
    | cons p rest =>
      have ha : k_mem_slab_alloc s.slab
          = some (p, { free_list := rest, num_used := s.slab.num_used + 1 }) := by
        simp [k_mem_slab_alloc, hfl]
      rw [ha]
      apply ih
      simp only
      rw [hfl] at hn
      simpa using hn

theorem send_loop_fatal (str : List Char) : ∀ (n i : Nat) (s h : State) (f : Fault), Inv s →
    send_loop str n i s = .fatal f h →
    f = .out_of_memory ∧ h.slab.free_list = [] ∧ h.in_fifo = s.in_fifo ∧
    s.out_fifo <+: h.out_fifo ∧ (∀ p ∈ s.in_fifo ++ s.out_fifo, h.mem p = s.mem p) ∧
    Inv h := by
  intro n
  induction n with
  | zero =>
    intro i s h f _ hf
    simp [send_loop] at hf
  | succ n ih =>
    intro i s h f hI hf
    simp only [send_loop] at hf
    split at hf
    · rename_i ha
      simp only [Result.fatal.injEq] at hf
      obtain ⟨rfl, rfl⟩ := hf
      exact ⟨rfl, alloc_none.mp ha, rfl, List.prefix_refl _, fun _ _ => rfl, hI⟩
    · rename_i p slab1 ha
      obtain ⟨hin, hout⟩ := alloc_fresh hI ha
      obtain ⟨h1, h2, h3, h4, h5, h6⟩ := ih (i + 1) _ h f (inv_put_out hI ha (str.getD i NUL)) hf
      refine ⟨h1, h2, h3, ?_, ?_, h6⟩
      · exact (List.prefix_append _ _).trans h4
      · intro x hx
        have hx1 : x ∈ s.in_fifo ++ k_fifo_put s.out_fifo p := by
          simp only [k_fifo_put, List.mem_append] at hx ⊢
          tauto
        rw [h5 x hx1]
        have : x ≠ p := by
          rintro rfl
          simp only [List.mem_append] at hx
          tauto
        simp [Function.update, this]

theorem range_getD_takeWhile (p : Char → Bool) (d : Char) : ∀ (l : List Char),
    (List.range (l.takeWhile p).length).map (fun k => l.getD k d) = l.takeWhile p := by
  intro l
  induction l with
  | nil => simp
  | cons a l ih =>
    by_cases ha : p a = true
    · simp only [List.takeWhile_cons, ha, if_true, List.length_cons]
      rw [List.range_succ_eq_map]
      simp only [List.map_cons, List.getD_cons_zero, List.map_map, List.cons.injEq, true_and]
      simpa [Function.comp_def] using ih
    · simp [List.takeWhile_cons, ha]

theorem to_int_of_lt {n : Nat} (h : n < 2147483648) : to_int n = (n : Int) := by
  have h1 : n % 4294967296 = n := Nat.mod_eq_of_lt (by omega)
  simp [to_int, h1, h]

theorem to_int_toNat_le (n : Nat) : (to_int n).toNat ≤ n := by
  have h1 : n % 4294967296 ≤ n := Nat.mod_le _ _
  unfold to_int
  split <;> omega

theorem msg_len_of_lt {str : List Char} (h : strlen str < 2147483648) :
    (msg_len str).toNat = strlen str := by
  simp [msg_len, to_int_of_lt h]

theorem taken_of_lt {str : List Char} (h : strlen str < 2147483648) : taken str = cstr str := by
  unfold taken
  rw [msg_len_of_lt h]
  exact List.take_of_length_le (le_of_eq rfl)

theorem range_getD_take (p : Char → Bool) (d : Char) (l : List Char) (k : Nat)
    (hk : k ≤ (l.takeWhile p).length) :
    (List.range k).map (fun i => l.getD i d) = (l.takeWhile p).take k := by
  have h := congrArg (List.take k) (range_getD_takeWhile p d l)
  rw [← List.map_take, List.take_range, Nat.min_eq_left hk] at h
  exact h

theorem send_str_ok {uart : Dev} {str : List Char} {s s1 : State} (hI : Inv s)
    (h : send_str uart str s = .ok s1) :
    Inv s1 ∧ s1.in_fifo = s.in_fifo ∧ s1.inBytes = s.inBytes ∧
    s1.outBytes = s.outBytes ++ taken str ∧ s1.wire = s.wire ∧ s1.irq_rx = s.irq_rx ∧
    s1.irq_tx = Function.update s.irq_tx uart true ∧
    (0 < msg_len str → s1.out_fifo ≠ []) ∧
    s1.slab.num_used = s.slab.num_used + (msg_len str).toNat := by
  unfold send_str at h
  split at h
  · simp at h
  · rename_i s0 hl
    simp only [Result.ok.injEq] at h
    subst h
    obtain ⟨h1, h2, h3, h4, h5, h6, h7, h8, h9⟩ := send_loop_ok str _ 0 s s0 hI hl
    refine ⟨⟨h1.nodup, h1.total, h1.used⟩, h2, h3, ?_, h5, h6, ?_, ?_, h9⟩
    · have := range_getD_take (fun c => c != NUL) NUL str (msg_len str).toNat
        (to_int_toNat_le (strlen str))
      simp only [Nat.zero_add] at h4
      rw [this] at h4
      exact h4
    · simp [uart_irq_tx_enable, h7]
    · intro hpos
      exact h8 (by omega)

theorem send_str_total (uart : Dev) (str : List Char) (s : State)
    (h : (msg_len str).toNat ≤ s.slab.free_list.length) :
    ∃ s1, send_str uart str s = .ok s1 := by
  obtain ⟨s0, h0⟩ := send_loop_total str (msg_len str).toNat 0 s h
  exact ⟨uart_irq_tx_enable uart s0, by simp [send_str, h0]⟩

theorem send_loop_exhausts (str : List Char) : ∀ (n i : Nat) (s : State),
    s.slab.free_list.length < n → ∃ t, send_loop str n i s = .fatal .out_of_memory t := by
  intro n
  induction n with
  | zero => intro i s h; omega
  | succ n ih =>
    intro i s hn
    simp only [send_loop]
    cases hfl : s.slab.free_list with
    | nil =>
      have ha : k_mem_slab_alloc s.slab = none := alloc_none.mpr hfl
      rw [ha]
      exact ⟨s, rfl⟩
    | cons p rest =>
      have ha : k_mem_slab_alloc s.slab
          = some (p, { free_list := rest, num_used := s.slab.num_used + 1 }) := by
        simp [k_mem_slab_alloc, hfl]
      rw [ha]
      apply ih
      simp only
      rw [hfl] at hn
      simpa using hn

theorem send_str_exhausts (uart : Dev) (str : List Char) (s : State)
    (h : (s.slab.free_list.length : Int) < msg_len str) :
    ∃ t, send_str uart str s = .fatal .out_of_memory t := by
  obtain ⟨t, ht⟩ := send_loop_exhausts str (msg_len str).toNat 0 s (by omega)
  exact ⟨t, by simp [send_str, ht]⟩

theorem send_str_fatal {uart : Dev} {str : List Char} {s h : State} {f : Fault} (hI : Inv s)
    (hf : send_str uart str s = .fatal f h) :
    f = .out_of_memory ∧ h.slab.free_list = [] ∧ h.in_fifo = s.in_fifo ∧
    s.out_fifo <+: h.out_fifo ∧ (∀ p ∈ s.in_fifo ++ s.out_fifo, h.mem p = s.mem p) ∧
    Inv h := by
  unfold send_str at hf
  split at hf
  · rename_i f0 h0 hl
    simp only [Result.fatal.injEq] at hf
    obtain ⟨rfl, rfl⟩ := hf
    exact send_loop_fatal str _ 0 s _ _ hI hl
  · simp at hf

theorem exec_ok {op : Op} {s s1 : State} (hI : Inv s) (h : op.exec s = .ok s1) :
    Inv s1 ∧
    s1.wireBytes ++ s1.outBytes = s.wireBytes ++ s.outBytes ++ accepted [op] := by
  cases op with
  | send uart str =>
    obtain ⟨h1, _, _, h4, h5, _⟩ := send_str_ok hI h
    refine ⟨h1, ?_⟩
    simp [State.wireBytes, h5, h4, accepted]
  | recv uart =>
    simp only [Op.exec, recv_str_eq, Result.ok.injEq] at h
    subst h
    exact ⟨drained_inv hI, by simp [accepted, drained, State.wireBytes, State.outBytes]⟩
  | irq dev hw =>
    obtain ⟨h1, _, _, ⟨X, hX1, hX2, _⟩, _⟩ := callback_ok hI h
    refine ⟨h1, ?_⟩
    simp [State.wireBytes, hX1, accepted, ← hX2]

theorem run_ok : ∀ (ops : List Op) (s s1 : State), Inv s → run ops s = .ok s1 →
    Inv s1 ∧ s1.wireBytes ++ s1.outBytes = s.wireBytes ++ s.outBytes ++ accepted ops := by
  intro ops
  induction ops with
  | nil =>
    intro s s1 hI h
    simp only [run, Result.ok.injEq] at h
    subst h
    simp [hI, accepted]
  | cons op ops ih =>
    intro s s1 hI h
    simp only [run] at h
    split at h
    · rename_i s0 he
      obtain ⟨hI0, hb0⟩ := exec_ok hI he
      obtain ⟨hI1, hb1⟩ := ih s0 s1 hI0 h
      refine ⟨hI1, ?_⟩
      rw [hb1, hb0]
      cases op <;> simp [accepted]
    · simp at h

theorem accepted_eq_sent : ∀ (ops : List Op),
    (∀ u str, Op.send u str ∈ ops → strlen str < 2147483648) → accepted ops = sent ops := by
  intro ops
  induction ops with
  | nil => intro _; rfl
  | cons op ops ih =>
    intro h
    have ih1 := ih (fun u str hm => h u str (List.mem_cons_of_mem _ hm))
    cases op with
    | send uart str =>
      simp only [accepted, sent, ih1, taken_of_lt (h uart str (List.mem_cons_self _ _))]
    | recv uart => simpa [accepted, sent] using ih1
    | irq dev hw => simpa [accepted, sent] using ih1

theorem reachable_inv {s : State} (h : Reachable s) : Inv s := by
  obtain ⟨ops, hr⟩ := h
  exact (run_ok ops init_state s init_inv hr).1

/-- Transmit stays armed on `E` while data is pending, as long as `send_str`
is called on `E` only. -/
theorem run_armed (E : Dev) : ∀ (ops : List Op) (s s1 : State), Inv s →
    (∀ u str, Op.send u str ∈ ops → u = E) →
    (s.out_fifo ≠ [] → s.irq_tx E = true) → run ops s = .ok s1 →
    (s1.out_fifo ≠ [] → s1.irq_tx E = true) := by
  intro ops
  induction ops with
  | nil =>
    intro s s1 _ _ hP h
    simp only [run, Result.ok.injEq] at h
    subst h
    exact hP
  | cons op ops ih =>
    intro s s1 hI hE hP h
    simp only [run] at h
    split at h
    · rename_i s0 he
      refine ih s0 s1 (exec_ok hI he).1 (fun u str hm => hE u str (List.mem_cons_of_mem _ hm)) ?_ h
      cases op with
      | send uart str =>
        have hu : uart = E := hE uart str (List.mem_cons_self _ _)
        obtain ⟨_, _, _, _, _, _, h7, _⟩ := send_str_ok hI he
        intro _
        subst hu
        simp [h7]
      | recv uart =>
        simp only [Op.exec, recv_str_eq, Result.ok.injEq] at he
        subst he
        exact hP
      | irq dev hw =>
        obtain ⟨_, _, _, _, h5, _⟩ := callback_ok hI he
        intro hne
        obtain ⟨h5a, h5b⟩ := h5 hne
        rw [h5b]
        exact hP h5a
    · simp at h

theorem run_armed_any : ∀ (ops : List Op) (s s1 : State), Inv s →
    (s.out_fifo ≠ [] → ∃ d, s.irq_tx d = true) → run ops s = .ok s1 →
    (s1.out_fifo ≠ [] → ∃ d, s1.irq_tx d = true) := by
  intro ops
  induction ops with
  | nil =>
    intro s s1 _ hP h
    simp only [run, Result.ok.injEq] at h
    subst h
    exact hP
  | cons op ops ih =>
    intro s s1 hI hP h
    simp only [run] at h
    split at h
    · rename_i s0 he
      refine ih s0 s1 (exec_ok hI he).1 ?_ h
      cases op with
      | send uart str =>
        obtain ⟨_, _, _, _, _, _, h7, _⟩ := send_str_ok hI he
        intro _
        exact ⟨uart, by simp [h7]⟩
      | recv uart =>
        simp only [Op.exec, recv_str_eq, Result.ok.injEq] at he
        subst he
        exact hP
      | irq dev hw =>
        obtain ⟨_, _, _, _, h5, _⟩ := callback_ok hI he
        intro hne
        obtain ⟨h5a, h5b⟩ := h5 hne
        rw [h5b]
        exact hP h5a
    · simp at h

theorem callback_tx_eq (dev : Dev) (hw : Hw) (s : State) (p : Nat) (q : List Nat)
    (hupd : hw.irq_update = true) (hpend : hw.irq_is_pending = true)
    (hrx : hw.irq_rx_ready = false) (htx : hw.irq_tx_ready = true)
    (hfill : hw.fill_ret = 1) (hq : s.out_fifo = p :: q) :
    uart_callback dev hw s =
      .ok { s with out_fifo := q, wire := s.wire ++ [(dev, s.mem p)],
                   slab := k_mem_slab_free s.slab p } := by
  simp [uart_callback, hupd, hpend, hrx, htx, hfill, hq, k_fifo_is_empty, k_fifo_get,
    uart_fifo_fill]

theorem callback_rx_eq (dev : Dev) (hw : Hw) (s : State) (p : Nat) (rest : List Nat)
    (hupd : hw.irq_update = true) (hpend : hw.irq_is_pending = true)
    (hrx : hw.irq_rx_ready = true) (htx : hw.irq_tx_ready = false)
    (hfl : s.slab.free_list = p :: rest) :
    uart_callback dev hw s =
      .ok { s with slab := { free_list := rest, num_used := s.slab.num_used + 1 },
                   mem := Function.update s.mem p hw.rx_byte,
                   in_fifo := k_fifo_put s.in_fifo p } := by
  simp [uart_callback, hupd, hpend, hrx, htx, hfl, k_mem_slab_alloc]

theorem callback_tx_total (dev : Dev) (s : State) : ∃ s1, uart_callback dev hw_tx s = .ok s1 := by
  cases hq : s.out_fifo with
  | nil =>
    exact ⟨uart_irq_tx_disable dev s, by simp [uart_callback, hw_tx, hq, k_fifo_is_empty]⟩
  | cons p q => exact ⟨_, callback_tx_eq dev hw_tx s p q rfl rfl rfl rfl rfl hq⟩

theorem link_step_ok {str : List Char} (hlen : str.length ≤ SLAB_BLOCKS) {l : Link}
    (hJ : InTransit str l) (ev : LinkEv) :
    ∃ l1, l.step ev = .ok l1 ∧ InTransit str l1 := by
  obtain ⟨hI, hb⟩ := hJ
  cases ev with
  | transmit =>
    obtain ⟨s1, h1⟩ := callback_tx_total .uart0 l.sys
    obtain ⟨hI1, hin, _, ⟨X, hX1, hX2, _⟩, _⟩ := callback_ok hI h1
    refine ⟨{ sys := s1, line := l.line ++ (s1.wire.drop l.sys.wire.length).map Prod.snd },
      by simp only [Link.step, h1], hI1, ?_⟩
    simp only [hX1, List.drop_left, hin]
    rw [← hb, ← hX2]
    simp [hw_tx]
  | receive =>
    cases hline : l.line with
    | nil => exact ⟨l, by simp [Link.step, hline], hI, hb⟩
    | cons c rest =>
      have hfree : l.sys.slab.free_list ≠ [] := by
        intro he
        have h1 := hI.total
        have h2 := hI.used
        have h3 := congrArg List.length hb
        simp only [State.inBytes, State.outBytes, hline, List.length_append, List.length_map,
          List.length_cons] at h3
        rw [he] at h1
        simp only [List.length_nil] at h1
        omega
      obtain ⟨p, fl, hfl⟩ := List.exists_cons_of_ne_nil hfree
      have h1 := callback_rx_eq .uart2 (hw_rx c) l.sys p fl rfl rfl rfl rfl hfl
      obtain ⟨hI1, hin, _, _, _, _, hout⟩ := callback_ok hI h1
      refine ⟨{ sys := _, line := rest }, by simp only [Link.step, hline, h1], hI1, ?_⟩
      simp only [hin, (hout rfl).2]
      rw [← hb, hline]
      simp [hw_rx]

theorem link_run_ok {str : List Char} (hlen : str.length ≤ SLAB_BLOCKS) :
    ∀ (evs : List LinkEv) (l : Link), InTransit str l →
      ∃ l1, Link.run evs l = .ok l1 ∧ InTransit str l1 := by
  intro evs
  induction evs with
  | nil => intro l hJ; exact ⟨l, rfl, hJ⟩
  | cons ev evs ih =>
    intro l hJ
    obtain ⟨l0, h0, hJ0⟩ := link_step_ok hlen hJ ev
    obtain ⟨l1, h1, hJ1⟩ := ih l0 hJ0
    exact ⟨l1, by simp only [Link.run, h0, h1], hJ1⟩

theorem lockstep_drains {str : List Char} (hlen : str.length ≤ SLAB_BLOCKS) :
    ∀ (n : Nat) (l : Link), InTransit str l → l.line = [] → l.sys.out_fifo.length = n →
      ∃ l1, Link.run (lockstep n) l = .ok l1 ∧ l1.sys.out_fifo = [] ∧ l1.line = [] := by
  intro n
  induction n with
  | zero =>
    intro l _ hline hn
    exact ⟨l, rfl, List.length_eq_zero.mp hn, hline⟩
  | succ n ih =>
    intro l hJ hline hn
    obtain ⟨p, q, hq⟩ := List.exists_cons_of_length_eq_add_one hn
    have ht := callback_tx_eq .uart0 hw_tx l.sys p q rfl rfl rfl rfl rfl hq
    obtain ⟨la, hla, hJa⟩ := link_step_ok hlen hJ .transmit
    have hla1 := hla
    simp only [Link.step, ht, Result.ok.injEq] at hla1
    have hfl : la.sys.slab.free_list = p :: l.sys.slab.free_list := by
      rw [← hla1]; rfl
    have hlinea : la.line = [l.sys.mem p] := by
      rw [← hla1]; simp [hline]
    have hra := callback_rx_eq .uart2 (hw_rx (l.sys.mem p)) la.sys p _ rfl rfl rfl rfl hfl
    obtain ⟨lb, hlb, hJb⟩ := link_step_ok hlen hJa .receive
    have hlb1 := hlb
    simp only [Link.step, hlinea, hra, Result.ok.injEq] at hlb1
    have hqb : lb.sys.out_fifo.length = n := by
      rw [← hlb1, ← hla1]
      simp only
      rw [hq] at hn
      simpa using hn
    have hlineb : lb.line = [] := by rw [← hlb1]
    obtain ⟨l1, hl1, h1, h2⟩ := ih lb hJb hlineb hqb
    exact ⟨l1, by simp only [lockstep, Link.run, hla, hlb, hl1], h1, h2⟩

theorem cstr_eq_self {str : List Char} (hnul : NUL ∉ str) : cstr str = str := by
  unfold cstr
  rw [List.takeWhile_eq_self_iff]
  intro c hc
  have : c ≠ NUL := fun e => hnul (e ▸ hc)
  simpa using this

theorem strlen_le (str : List Char) : strlen str ≤ str.length := by
  unfold strlen
  exact (List.takeWhile_sublist _).length_le

theorem init_free_length : init_state.slab.free_list.length = SLAB_BLOCKS := by
  simp [init_state, k_mem_slab_init, uart_irq_rx_enable, uart_irq_tx_disable,
    uart_irq_rx_disable]

theorem in_transit_recv {str : List Char} {l : Link} (hJ : InTransit str l)
    (hout : l.sys.out_fifo = []) (hline : l.line = []) (uart : Dev) :
    ∃ s2, recv_str uart l.sys = .ok (s2, str ++ [NUL]) := by
  refine ⟨drained l.sys, ?_⟩
  rw [recv_str_eq]
  have hb := hJ.bytes
  simp only [hline, State.outBytes, hout, List.map_nil, List.append_nil] at hb
  rw [hb]

theorem exec_fatal_oom {op : Op} {s h : State} (hI : Inv s)
    (hf : op.exec s = .fatal .out_of_memory h) :
    h.slab.num_used = SLAB_BLOCKS ∧ h.in_fifo = s.in_fifo ∧ s.out_fifo <+: h.out_fifo ∧
    ∀ p ∈ s.in_fifo ++ s.out_fifo, h.mem p = s.mem p := by
  have full : ∀ t : State, Inv t → t.slab.free_list = [] → t.slab.num_used = SLAB_BLOCKS := by
    intro t ht he
    have := ht.total
    rw [he] at this
    simpa using this
  cases op with
  | send uart str =>
    obtain ⟨_, h2, h3, h4, h5, h6⟩ := send_str_fatal hI hf
    exact ⟨full h h6 h2, h3, h4, h5⟩
  | recv uart =>
    simp [Op.exec, recv_str_eq] at hf
  | irq dev hw =>
    obtain ⟨rfl, he⟩ := callback_fatal_oom hf
    exact ⟨full h hI he, rfl, List.prefix_refl _, fun _ _ => rfl⟩

/-! ## Properties of the program -/

/-- C3. Interrupt-storm guard: when the outbound queue is empty, an invocation of
`uart_callback` on a port with an interrupt pending, transmit-ready asserted and
receive-ready not asserted returns, leaves that port's transmit-ready interrupt
disabled, writes nothing to any peripheral, and leaves both queues, the slab,
the payloads and every other interrupt enable as they were. -/
theorem tx_idle_disarms (dev : Dev) (hw : Hw) (s : State)
    (hupd : hw.irq_update = true) (hpend : hw.irq_is_pending = true)
    (htx : hw.irq_tx_ready = true) (hrx : hw.irq_rx_ready = false)
    (hempty : s.out_fifo = []) :
    ∃ s1, uart_callback dev hw s = .ok s1 ∧ s1.irq_tx dev = false ∧ s1.wire = s.wire ∧
      s1.in_fifo = s.in_fifo ∧ s1.out_fifo = s.out_fifo ∧ s1.slab = s.slab ∧
      s1.mem = s.mem ∧ s1.irq_rx = s.irq_rx ∧ ∀ d, d ≠ dev → s1.irq_tx d = s.irq_tx d := by
  refine ⟨uart_irq_tx_disable dev s, ?_, ?_, rfl, rfl, rfl, rfl, rfl, rfl, ?_⟩
  · simp [uart_callback, hupd, hpend, htx, hrx, hempty, k_fifo_is_empty]
  · simp [uart_irq_tx_disable]
  · intro d hd
    simp [uart_irq_tx_disable, Function.update, hd]

/-- C5 (as stated, refuted). In the state set up by `main` the transmit-ready
interrupt of `uart0` is disabled; `send_str(uart0, "")` returns with it
enabled. -/
theorem empty_send_arms_transmit :
    init_state.irq_tx .uart0 = false ∧
    ∃ s1, send_str .uart0 [] init_state = .ok s1 ∧ s1.irq_tx .uart0 = true := by
  refine ⟨rfl, uart_irq_tx_enable .uart0 init_state, rfl, ?_⟩
  simp [uart_irq_tx_enable]

/-- C5 (amended). For every state and port `E`, `send_str(E, "")` returns,
allocates nothing, leaves both queues, the payloads, the peripherals' output
and the receive enables unchanged, leaves the transmit-ready interrupt of `E`
enabled whatever it was before, and leaves the transmit enable of every other
port unchanged. -/
theorem empty_send_effect (E : Dev) (s : State) :
    ∃ s1, send_str E [] s = .ok s1 ∧ s1.slab = s.slab ∧ s1.mem = s.mem ∧
      s1.in_fifo = s.in_fifo ∧ s1.out_fifo = s.out_fifo ∧ s1.wire = s.wire ∧
      s1.irq_rx = s.irq_rx ∧ s1.irq_tx E = true ∧
      ∀ d, d ≠ E → s1.irq_tx d = s.irq_tx d := by
  refine ⟨uart_irq_tx_enable E s, rfl, rfl, rfl, rfl, rfl, rfl, rfl, ?_, ?_⟩
  · simp [uart_irq_tx_enable]
  · intro d hd
    simp [uart_irq_tx_enable, Function.update, hd]

/-- C8. Receive drains everything currently queued: in every state, with `n`
elements in the inbound queue, the loop of `recv_str` ends after exactly `n`
calls of `k_fifo_get`, none of which returns `NULL`; `recv_str` stores the `n`
payloads in queue order followed by a NUL, leaves the inbound queue empty,
gives exactly those `n` blocks back to the slab, and leaves the outbound queue,
the payloads, the interrupt enables and the peripherals' output unchanged. -/
theorem recv_drains (uart : Dev) (s : State) :
    ∃ s1, recv_loop s [] 0 = .ok (s1, s.in_fifo.map s.mem, s.in_fifo.length) ∧
      recv_str uart s = .ok (s1, s.in_fifo.map s.mem ++ [NUL]) ∧
      s1.in_fifo = [] ∧
      s1.slab.free_list = s.in_fifo.reverse ++ s.slab.free_list ∧
      s1.slab.num_used = s.slab.num_used - s.in_fifo.length ∧
      s1.out_fifo = s.out_fifo ∧ s1.mem = s.mem ∧
      s1.irq_rx = s.irq_rx ∧ s1.irq_tx = s.irq_tx ∧ s1.wire = s.wire := by
  refine ⟨drained s, ?_, ?_, rfl, rfl, rfl, rfl, rfl, rfl, rfl, rfl⟩
  · simpa using recv_loop_eq s.in_fifo s [] 0 rfl
  · simpa [State.inBytes] using recv_str_eq uart s

/-- C9. Idempotence of receive: in every state, a second call of `recv_str`
right after a first one returns the empty string and leaves the whole state,
queues and slab included, exactly as the first call left it. -/
theorem recv_twice (uart uart1 : Dev) (s : State) :
    ∃ s1 out, recv_str uart s = .ok (s1, out) ∧ recv_str uart1 s1 = .ok (s1, [NUL]) := by
  refine ⟨drained s, s.inBytes ++ [NUL], recv_str_eq uart s, ?_⟩
  rw [recv_str_eq]
  simp [drained, State.inBytes]

/-- C10. No element is leaked: in every state reached from the initial state by
invocations of `send_str`, `recv_str` and `uart_callback` that all returned, the
number of blocks in use equals the number of elements in the two queues, it is
also the number of blocks missing from the free list, no block is in both
queues or twice in one, and no queued block is in the free list. -/
theorem no_leak (s : State) (h : Reachable s) :
    s.slab.num_used = s.in_fifo.length + s.out_fifo.length ∧
    s.slab.num_used = SLAB_BLOCKS - s.slab.free_list.length ∧
    (s.in_fifo ++ s.out_fifo).Nodup ∧
    ∀ p ∈ s.in_fifo ++ s.out_fifo, p ∉ s.slab.free_list := by
  obtain ⟨hn, ht, hu⟩ := reachable_inv h
  rw [List.nodup_append] at hn
  refine ⟨hu, by omega, hn.2.1, ?_⟩
  intro p hp hf
  exact hn.2.2 hf hp

/-- FIFO order under interleaving, for strings whose length fits an `int`: after
any sequence of invocations of `send_str`, `recv_str` and `uart_callback` that
all returned, starting from the initial state, in which every string passed to
`send_str` is shorter than `2^31` bytes, the bytes written to the peripherals so
far followed by the payloads of the outbound queue from head to tail are the
concatenation of the strings passed to `send_str`, in call order. -/
theorem fifo_order_of_int_length (ops : List Op) (s : State)
    (hlen : ∀ u str, Op.send u str ∈ ops → strlen str < 2147483648)
    (h : run ops init_state = .ok s) :
    s.wireBytes ++ s.outBytes = sent ops := by
  have := (run_ok ops init_state s init_inv h).2
  rw [accepted_eq_sent ops hlen] at this
  simpa [State.wireBytes, State.outBytes, init_state, k_fifo_init, uart_irq_rx_enable,
    uart_irq_tx_disable, uart_irq_rx_disable] using this

/-- FIFO order under interleaving, for all strings: after any sequence of
invocations that all returned, starting from the initial state, the bytes
written to the peripherals so far followed by the payloads of the outbound
queue are, in call order, the first `msg_len` bytes of each string passed to
`send_str`. -/
theorem fifo_order_of_taken (ops : List Op) (s : State) (h : run ops init_state = .ok s) :
    s.wireBytes ++ s.outBytes = accepted ops := by
  have := (run_ok ops init_state s init_inv h).2
  simpa [State.wireBytes, State.outBytes, init_state, k_fifo_init, uart_irq_rx_enable,
    uart_irq_tx_disable, uart_irq_rx_disable] using this

/-- C4. Transmit is never disarmed while data is pending.  Whenever
`send_str(E, str)` with a non-empty `str` returns, the transmit-ready interrupt
of `E` is enabled.  In every state reached from the initial state by
invocations that all returned, a non-empty outbound queue implies that the
transmit-ready interrupt is enabled on some port, and on `E` when `send_str`
was only ever called on `E`. -/
theorem tx_armed_while_pending :
    (∀ (E : Dev) (str : List Char) (s s1 : State), 0 < strlen str →
      send_str E str s = .ok s1 → s1.irq_tx E = true) ∧
    (∀ (ops : List Op) (s : State), run ops init_state = .ok s → s.out_fifo ≠ [] →
      (∃ d, s.irq_tx d = true) ∧
      ∀ E, (∀ u str, Op.send u str ∈ ops → u = E) → s.irq_tx E = true) := by
  constructor
  · intro E str s s1 _ h
    unfold send_str at h
    split at h
    · simp at h
    · simp only [Result.ok.injEq] at h
      subst h
      simp [uart_irq_tx_enable]
  · intro ops s h hne
    have h0 : init_state.out_fifo = [] := rfl
    refine ⟨run_armed_any ops init_state s init_inv (fun hc => absurd h0 hc) h hne, ?_⟩
    intro E hE
    exact run_armed E ops init_state s init_inv hE (fun hc => absurd h0 hc) h hne

/-- C1. Round trip: for every byte sequence `str` without a NUL and of length at
most 512, `send_str(uart0, str)` from the initial state returns; serving the
loop-back byte by byte (handler on `uart0` with transmit-ready, then handler on
`uart2` with receive-ready and the byte just written) `str.length` times
empties the outbound queue and the line, and `recv_str(uart2)` then stores
exactly `str` followed by a NUL.  The same holds for every other order in which
the two interrupts are served: no such run halts, and whenever it leaves the
outbound queue and the line empty, `recv_str(uart2)` stores exactly `str`
followed by a NUL. -/
theorem round_trip (str : List Char) (hnul : NUL ∉ str) (hlen : str.length ≤ SLAB_BLOCKS) :
    ∃ s1, send_str .uart0 str init_state = .ok s1 ∧
      (∃ l, Link.run (lockstep str.length) { sys := s1, line := [] } = .ok l ∧
        l.sys.out_fifo = [] ∧ l.line = [] ∧
        ∃ s2, recv_str .uart2 l.sys = .ok (s2, str ++ [NUL])) ∧
      (∀ evs, ∃ l, Link.run evs { sys := s1, line := [] } = .ok l ∧
        (l.sys.out_fifo = [] → l.line = [] →
          ∃ s2, recv_str .uart2 l.sys = .ok (s2, str ++ [NUL]))) := by
  have hsl : strlen str ≤ SLAB_BLOCKS := (strlen_le str).trans hlen
  have hint : strlen str < 2147483648 := by
    have : SLAB_BLOCKS = 512 := rfl
    omega
  have hfit : (msg_len str).toNat ≤ init_state.slab.free_list.length := by
    rw [init_free_length, msg_len_of_lt hint]
    exact hsl
  obtain ⟨s1, h1⟩ := send_str_total .uart0 str init_state hfit
  obtain ⟨hI1, _, hin, hout, _⟩ := send_str_ok init_inv h1
  have hin0 : s1.inBytes = [] := by rw [hin]; rfl
  have hout0 : s1.outBytes = str := by
    rw [hout, taken_of_lt hint, cstr_eq_self hnul]
    rfl
  have hJ : InTransit str { sys := s1, line := [] } := ⟨hI1, by simp [hin0, hout0]⟩
  have hq : s1.out_fifo.length = str.length := by
    have := congrArg List.length hout0
    simpa [State.outBytes] using this
  refine ⟨s1, h1, ?_, ?_⟩
  · obtain ⟨l, hl, ho, hline⟩ := lockstep_drains hlen str.length _ hJ rfl hq
    obtain ⟨l1, hl1, hJ1⟩ := link_run_ok hlen (lockstep str.length) _ hJ
    rw [hl] at hl1
    simp only [Result.ok.injEq] at hl1
    subst hl1
    exact ⟨l, hl, ho, hline, in_transit_recv hJ1 ho hline .uart2⟩
  · intro evs
    obtain ⟨l, hl, hJ1⟩ := link_run_ok hlen evs _ hJ
    exact ⟨l, hl, fun ho hline => in_transit_recv hJ1 ho hline .uart2⟩

/-- C2. Pool bound: in every state reached from the initial state by invocations
of `send_str`, `recv_str` and `uart_callback` that all returned, at most 512
blocks are in use.  When 512 are in use, `send_str` whose loop runs at least
once (`msg_len` positive) and `uart_callback` with an interrupt pending and
receive-ready asserted halt on the out-of-memory assertion with the state
untouched.  A `send_str` whose `msg_len` exceeds the number of free blocks
halts on that assertion.  Whenever an invocation halts on that assertion, 512
blocks are in use at the halt, the inbound queue is as before, the outbound
queue still starts with the elements it held before, and the payload of every
element queued before is unchanged. -/
theorem pool_bound (s : State) (h : Reachable s) :
    s.slab.num_used ≤ SLAB_BLOCKS ∧
    (s.slab.num_used = SLAB_BLOCKS →
      (∀ uart str, 0 < msg_len str → send_str uart str s = .fatal .out_of_memory s) ∧
      (∀ dev hw, hw.irq_update = true → hw.irq_is_pending = true →
        hw.irq_rx_ready = true → uart_callback dev hw s = .fatal .out_of_memory s)) ∧
    (∀ uart str, (s.slab.free_list.length : Int) < msg_len str →
      ∃ t, send_str uart str s = .fatal .out_of_memory t) ∧
    (∀ op t, Op.exec op s = .fatal .out_of_memory t →
      t.slab.num_used = SLAB_BLOCKS ∧ t.in_fifo = s.in_fifo ∧ s.out_fifo <+: t.out_fifo ∧
      ∀ p ∈ s.in_fifo ++ s.out_fifo, t.mem p = s.mem p) := by
  have hI := reachable_inv h
  refine ⟨?_, ?_, fun uart str hlt => send_str_exhausts uart str s hlt,
    fun op t hf => exec_fatal_oom hI hf⟩
  · have := hI.total
    omega
  · intro hfull
    have hfl : s.slab.free_list = [] := by
      have := hI.total
      rw [hfull] at this
      exact List.length_eq_zero.mp (by omega)
    have ha : k_mem_slab_alloc s.slab = none := alloc_none.mpr hfl
    constructor
    · intro uart str hpos
      obtain ⟨n, hn⟩ : ∃ n, (msg_len str).toNat = n + 1 :=
        Nat.exists_eq_succ_of_ne_zero (by omega)
      simp [send_str, hn, send_loop, ha]
    · intro dev hw hupd hpend hrx
      simp [uart_callback, hupd, hpend, hrx, ha]

/-- C6 (as stated, refuted). From the initial state, a byte read from the
peripheral of `uart2` by `uart_callback` is returned by `recv_str(uart0)`; and
after `send_str(uart0, "x")` and `send_str(uart2, "y")`, `uart_callback`
running on `uart2` with transmit-ready writes `x`, queued for `uart0`, to the
peripheral of `uart2`. -/
theorem queues_not_per_endpoint :
    (∃ s1 s2, uart_callback .uart2 (hw_rx 'x') init_state = .ok s1 ∧
      recv_str .uart0 s1 = .ok (s2, ['x', NUL])) ∧
    (∃ s1 s2 s3, send_str .uart0 ['x'] init_state = .ok s1 ∧
      send_str .uart2 ['y'] s1 = .ok s2 ∧
      uart_callback .uart2 hw_tx s2 = .ok s3 ∧ s3.wire = [(.uart2, 'x')]) := by
  constructor
  · set_option maxRecDepth 100000 in
    exact ⟨_, _, rfl, (recv_str_eq _ _).trans rfl⟩
  · set_option maxRecDepth 100000 in
    exact ⟨_, _, _, rfl, rfl, rfl, rfl⟩

/-- C6 (amended). The inbound queue and the outbound queue are each one queue
shared by all ports.  For any ports `A` and `B`: `recv_str` returns the same
bytes and leaves the same state whichever port it is called on; in a reachable
state, a byte read from the peripheral of `A` by `uart_callback` is the last
byte returned by the next `recv_str(B)`; when the outbound queue is empty and
`send_str(A, str)` returns after its loop has run at least once, `uart_callback`
running on `B` with only transmit-ready asserted writes the first byte of `str`
to the peripheral of `B`; and in every state `uart_callback` running on `B`
with only transmit-ready asserted writes the payload at the head of the
outbound queue to the peripheral of `B` and removes it from the queue. -/
theorem shared_queues (A B : Dev) :
    (∀ s, recv_str A s = recv_str B s) ∧
    (∀ s hw s1, Reachable s → hw.irq_update = true → hw.irq_is_pending = true →
      hw.irq_rx_ready = true → uart_callback A hw s = .ok s1 →
      ∃ s2, recv_str B s1 = .ok (s2, s.inBytes ++ [hw.rx_byte] ++ [NUL])) ∧
    (∀ s str s1 hw c rest, Reachable s → s.out_fifo = [] → cstr str = c :: rest →
      0 < msg_len str →
      send_str A str s = .ok s1 → hw.irq_update = true → hw.irq_is_pending = true →
      hw.irq_rx_ready = false → hw.irq_tx_ready = true → hw.fill_ret = 1 →
      ∃ s2, uart_callback B hw s1 = .ok s2 ∧ s2.wire = s1.wire ++ [(B, c)]) ∧
    (∀ s hw p q, s.out_fifo = p :: q → hw.irq_update = true → hw.irq_is_pending = true →
      hw.irq_rx_ready = false → hw.irq_tx_ready = true → hw.fill_ret = 1 →
      ∃ s2, uart_callback B hw s = .ok s2 ∧ s2.wire = s.wire ++ [(B, s.mem p)] ∧
        s2.out_fifo = q) := by
  refine ⟨fun s => rfl, ?_, ?_, ?_⟩
  · intro s hw s1 hr hupd hpend hrx hcb
    obtain ⟨_, hin, _⟩ := callback_ok (reachable_inv hr) hcb
    refine ⟨drained s1, ?_⟩
    rw [recv_str_eq, hin]
    simp [hupd, hpend, hrx]
  · intro s str s1 hw c rest hr hempty hstr hpos hsend hupd hpend hrx htx hfill
    obtain ⟨_, _, _, hout, _⟩ := send_str_ok (reachable_inv hr) hsend
    obtain ⟨n, hn⟩ : ∃ n, (msg_len str).toNat = n + 1 :=
      Nat.exists_eq_succ_of_ne_zero (by omega)
    have hout1 : s1.out_fifo.map s1.mem = c :: rest.take n := by
      simpa [State.outBytes, hempty, taken, hstr, hn] using hout
    obtain ⟨p, q, hq, hp, _⟩ := List.map_eq_cons_iff.mp hout1
    refine ⟨_, callback_tx_eq B hw s1 p q hupd hpend hrx htx hfill hq, ?_⟩
    simp [hp]
  · intro s hw p q hq hupd hpend hrx htx hfill
    exact ⟨_, callback_tx_eq B hw s p q hupd hpend hrx htx hfill hq, rfl, rfl⟩

/-! ## The properties at concrete inputs -/

/-- C1 at the string "Hi": it has no NUL and fits the slab, `send_str(uart0, "Hi")`
returns, two rounds of the loop-back empty the outbound queue and the line,
and `recv_str(uart2)` then stores "Hi" followed by a NUL. -/
theorem round_trip_witness :
    NUL ∉ ['H', 'i'] ∧ ['H', 'i'].length ≤ SLAB_BLOCKS ∧
    ∃ s1, send_str .uart0 ['H', 'i'] init_state = .ok s1 ∧
      ∃ l, Link.run (lockstep 2) { sys := s1, line := [] } = .ok l ∧
        l.sys.out_fifo = [] ∧ l.line = [] ∧
        ∃ s2, recv_str .uart2 l.sys = .ok (s2, ['H', 'i', NUL]) := by
  have hnul : NUL ∉ ['H', 'i'] := by decide
  have hlen : ['H', 'i'].length ≤ SLAB_BLOCKS := by decide
  obtain ⟨s1, h1, h2, _⟩ := round_trip ['H', 'i'] hnul hlen
  exact ⟨hnul, hlen, s1, h1, h2⟩

/-- C2 at the state in which one `send_str` has used all 512 blocks: it is
reachable, a further `send_str` and a receive-ready interrupt both halt on the
out-of-memory assertion, and the state at the halt is that state.  From the
initial state, `send_str` with 513 bytes halts on the same assertion. -/
theorem pool_bound_witness :
    Reachable full_state ∧ full_state.slab.num_used = SLAB_BLOCKS ∧
    send_str .uart0 ['B'] full_state = .fatal .out_of_memory full_state ∧
    uart_callback .uart2 (hw_rx 'x') full_state = .fatal .out_of_memory full_state ∧
    ∃ t, send_str .uart0 (List.replicate 513 'A') init_state = .fatal .out_of_memory t := by
  have hr : Reachable full_state :=
    ⟨full_ops, by set_option maxRecDepth 1000000 in exact rfl⟩
  have hfull : full_state.slab.num_used = SLAB_BLOCKS := by
    set_option maxRecDepth 1000000 in decide
  have h := (pool_bound full_state hr).2.1 hfull
  have hover : (init_state.slab.free_list.length : Int) < msg_len (List.replicate 513 'A') := by
    set_option maxRecDepth 1000000 in decide
  exact ⟨hr, hfull, h.1 .uart0 ['B'] (by decide), h.2 .uart2 (hw_rx 'x') rfl rfl rfl,
    (pool_bound init_state ⟨[], rfl⟩).2.2.1 .uart0 (List.replicate 513 'A') hover⟩

/-- C3 at the initial state with the transmit-ready interrupt of `uart0`
enabled: the handler on `uart0` with only transmit-ready asserted disables
it. -/
theorem tx_idle_disarms_witness :
    armed_idle.out_fifo = [] ∧ armed_idle.irq_tx .uart0 = true ∧
    ∃ s1, uart_callback .uart0 hw_tx armed_idle = .ok s1 ∧ s1.irq_tx .uart0 = false ∧
      s1.wire = armed_idle.wire ∧ s1.in_fifo = armed_idle.in_fifo ∧
      s1.out_fifo = armed_idle.out_fifo ∧ s1.slab = armed_idle.slab := by
  obtain ⟨s1, h1, h2, h3, h4, h5, h6, _⟩ :=
    tx_idle_disarms .uart0 hw_tx armed_idle rfl rfl rfl rfl rfl
  exact ⟨rfl, by simp [armed_idle, uart_irq_tx_enable], s1, h1, h2, h3, h4, h5, h6⟩

/-- C4 after `send_str(uart0, "Hi")` and one transmit-ready interrupt: one byte
is still queued and the transmit-ready interrupt of `uart0` is enabled. -/
theorem tx_armed_while_pending_witness :
    run pending_ops init_state = .ok pending_state ∧ pending_state.out_fifo ≠ [] ∧
    pending_state.irq_tx .uart0 = true := by
  have hrun : run pending_ops init_state = .ok pending_state := by
    set_option maxRecDepth 100000 in exact rfl
  have hne : pending_state.out_fifo ≠ [] := by
    set_option maxRecDepth 100000 in decide
  refine ⟨hrun, hne, (tx_armed_while_pending.2 pending_ops pending_state hrun hne).2 .uart0 ?_⟩
  intro u str hm
  simp only [pending_ops, List.mem_cons, List.mem_singleton, Op.send.injEq, reduceCtorEq,
    or_false, List.not_mem_nil] at hm
  exact hm.1

/-- C6 (amended) at `A = uart2`, `B = uart0`: the byte `x` read from the
peripheral of `uart2` is returned by `recv_str(uart0)`, and the byte `x` queued
by `send_str(uart0, "x")` is written to the peripheral of `uart2`. -/
theorem shared_queues_witness :
    (∃ s2, recv_str .uart0 got_x = .ok (s2, ['x', NUL])) ∧
    (∃ s2, uart_callback .uart2 hw_tx sent_x = .ok s2 ∧ s2.wire = [(.uart2, 'x')]) := by
  have hinit : Reachable init_state := ⟨[], rfl⟩
  have hgot : uart_callback .uart2 (hw_rx 'x') init_state = .ok got_x := by
    set_option maxRecDepth 100000 in exact rfl
  have hsent : send_str .uart0 ['x'] init_state = .ok sent_x := by
    set_option maxRecDepth 100000 in exact rfl
  exact ⟨(shared_queues .uart2 .uart0).2.1 init_state (hw_rx 'x') got_x hinit rfl rfl rfl hgot,
    (shared_queues .uart0 .uart2).2.2.1 init_state ['x'] sent_x hw_tx 'x' [] hinit rfl
      (by decide) (by decide) hsent rfl rfl rfl rfl rfl⟩

/-- The payloads `a`, `b`, `c` queued by three calls of `send_str` with the
handler transmitting in between: what was written followed by what is still
queued is `a`, `b`, `c`. -/
theorem fifo_order_abc :
    run abc_ops init_state = .ok abc_state ∧
    abc_state.wireBytes ++ abc_state.outBytes = ['a', 'b', 'c'] := by
  have hrun : run abc_ops init_state = .ok abc_state := by
    set_option maxRecDepth 100000 in exact rfl
  have hlen : ∀ u str, Op.send u str ∈ abc_ops → strlen str < 2147483648 := by
    intro u str hm
    simp only [abc_ops, List.mem_cons, Op.send.injEq, reduceCtorEq, List.mem_singleton,
      List.not_mem_nil, or_false, false_or] at hm
    rcases hm with ⟨_, rfl⟩ | ⟨_, rfl⟩ | ⟨_, rfl⟩ <;> decide
  exact ⟨hrun, fifo_order_of_int_length abc_ops abc_state hlen hrun⟩

/-- C10 after a send and one invocation of the handler that both receives and
transmits: two blocks are in use, one in each queue. -/
theorem no_leak_witness :
    Reachable mixed_state ∧
    mixed_state.slab.num_used = mixed_state.in_fifo.length + mixed_state.out_fifo.length ∧
    (mixed_state.in_fifo ++ mixed_state.out_fifo).Nodup := by
  have hr : Reachable mixed_state :=
    ⟨mixed_ops, by set_option maxRecDepth 100000 in exact rfl⟩
  have h := no_leak mixed_state hr
  exact ⟨hr, h.1, h.2.2.1⟩

end UartTest
